import Mathlib

/-!
Verification of the task-sequencer optimizer (src/index.ipynb).

The notebook stores the task table in a pandas dataframe whose first three
columns are the task name, the duration and the failure probability, followed
by dependency columns D1, D2, ... holding either a task name, or the numeric
sentinel 0 meaning "no prerequisite at this slot".  The embedding below keeps
the same shape: a DF structure with the three typed columns and a list of
dependency rows whose cells are either a name or a number.

Numeric computation (numpy arrays of floats) is embedded over the reals; numpy
arrays of length n become functions from natural numbers to the reals used on
the index range below n, and the numpy reductions become Finset.range sums and
products.
-/

namespace TaskSequencer

/-- A cell of a dependency column: either a task name (a string typed by the
user) or a number (the 0.0 sentinel, or an index after name resolution). -/
inductive Cell where
  | name (s : String)
  | num (n : ℕ)
deriving DecidableEq, Repr

/-- The task table: one entry per row of the sheet.  tasks is the Task column,
times the Time column, probs the Probability column, and deps the rows of the
dependency columns D1, D2, ... -/
structure DF where
  tasks : List String
  times : List ℝ
  probs : List ℝ
  deps : List (List Cell)

/-- Embeds name_to_row_dict: dict(zip(df['Task'], df.index + 1)).  Later
duplicate keys overwrite earlier ones, exactly as a Python dict built by zip
does, hence the left fold that keeps the last matching row. -/
def name_to_row (tasks : List String) (s : String) : Option ℕ :=
  (tasks.enum).foldl (fun acc p => if p.2 = s then some (p.1 + 1) else acc) none

/-- One cell of the pandas replace performed by switch_from_names: a string
cell that is a known task name becomes that task's 1-based row index; every
other cell is left alone. -/
def resolveCell (tasks : List String) : Cell → Cell
  | Cell.name s =>
      match name_to_row tasks s with
      | some k => Cell.num k
      | none => Cell.name s
  | Cell.num n => Cell.num n

/-- Embeds switch_from_names: replaces task names in the dependency columns
by their corresponding 1-based indices, in place on the dataframe. -/
def switch_from_names (df : DF) : DF :=
  { df with deps := df.deps.map (fun row => row.map (resolveCell df.tasks)) }

/-- Membership test of one dependency cell in the prev_ind list of already
placed indices.  In the Python code prev_ind holds ints, so a string cell
never compares equal to any element of it. -/
def cellMem (c : Cell) (prev : List ℕ) : Bool :=
  match c with
  | Cell.num n => prev.contains n
  | Cell.name _ => false

/-- The loop of check_perm: prev is the prev_ind accumulator (seeded with the
sentinel 0) and todo the remaining suffix of the permutation.  Note the Python
code appends the current index to prev_ind before reading its dependency
row. -/
def checkAux (deps : List (List Cell)) : List ℕ → List ℕ → Bool
  | _, [] => true
  | prev, i :: rest =>
      if (deps.getD (i - 1) []).all (fun c => cellMem c (prev ++ [i])) then
        checkAux deps (prev ++ [i]) rest
      else
        false

/-- Embeds check_perm: walks the permutation left to right, maintaining the
list of indices placed so far seeded with the sentinel 0, and requires every
dependency cell of the current task to already be in that list. -/
def check_perm (perm : List ℕ) (deps : List (List Cell)) : Bool :=
  checkAux deps [0] perm

/-- Embeds validate_perms: keeps the permutations accepted by check_perm. -/
def validate_perms (perms : List (List ℕ)) (deps : List (List Cell)) : List (List ℕ) :=
  perms.filter (fun perm => check_perm perm deps)

/-- Dependency rows whose cells are all numeric (the situation after
switch_from_names has resolved every name), injected into Cell form. -/
def numDeps (deps : List (List ℕ)) : List (List Cell) :=
  deps.map (fun row => row.map Cell.num)

/-- The feasibility predicate of the specification: at every position k of the
ordering, each declared dependency of the task placed there is either the
sentinel 0 or appears strictly before position k. -/
def feasiblePerm (perm : List ℕ) (deps : List (List ℕ)) : Prop :=
  ∀ k < perm.length, ∀ d ∈ deps.getD (perm.getD k 0 - 1) [],
    d = 0 ∨ d ∈ perm.take k

/-- Recursion of the permutation generator: picks each element of the list in
turn as the head and recurses on the list with that element erased, which for
a sorted duplicate-free input enumerates permutations in lexicographic order,
the order itertools.permutations produces. -/
def permsAux : ℕ → List ℕ → List (List ℕ)
  | 0, _ => [[]]
  | k + 1, l => l.flatMap (fun x => (permsAux k (l.erase x)).map (fun p => x :: p))

/-- Embeds gen_perms: all permutations of the row indices 1..n. -/
def gen_perms (n : ℕ) : List (List ℕ) :=
  permsAux n (List.range' 1 n)

/-- A cell equal to the numeric sentinel 0, the only value the trimmed sheet
treats as empty (df.values == 0 is false on every string cell). -/
def isZeroCell (c : Cell) : Bool :=
  c = Cell.num 0

/-- Embeds trim_df.  The Python code finds the first all-zero row (resp.
column) with np.where; when none exists it uses shape - 1, and then slices the
dataframe with iloc up to but excluding that position on both axes. -/
def trim_df (df : List (List Cell)) : List (List Cell) :=
  let rowsN := df.length
  let colsN := (df.headD []).length
  let i0 := df.findIdx (fun row => row.all isZeroCell)
  let n0 := if i0 = rowsN then rowsN - 1 else i0
  let j0 := (List.range colsN).findIdx
    (fun j => df.all (fun row => isZeroCell (row.getD j (Cell.num 0))))
  let n1 := if j0 = colsN then colsN - 1 else j0
  (df.take n0).map (fun row => row.take n1)

/-- Embeds expand_to_lower_tri_mat: repeats the array as every row of a square
matrix and zeroes the strictly upper part with np.tril. -/
noncomputable def expand_to_lower_tri_mat (arr : ℕ → ℝ) : ℕ → ℕ → ℝ :=
  fun i j => if j ≤ i then arr j else 0

/-- Embeds np.fill_diagonal(M, 0): the matrix with its diagonal zeroed. -/
noncomputable def fillDiagZero (M : ℕ → ℕ → ℝ) : ℕ → ℕ → ℝ :=
  fun i j => if i = j then 0 else M i j

/-- Embeds np.triu(np.ones(...)) followed by np.fill_diagonal(ones, 0): ones
strictly above the diagonal, zero elsewhere. -/
noncomputable def triuOnes : ℕ → ℕ → ℝ :=
  fun i j => if i < j then 1 else 0

/-- Embeds np.diag(c): the diagonal matrix with c on the diagonal. -/
noncomputable def diagMat (c : ℕ → ℝ) : ℕ → ℕ → ℝ :=
  fun i j => if i = j then c i else 0

/-- Embeds prob_prod_arr for an n by n matrix: zeroes the diagonal of
prob_mat, adds the strictly upper triangle of ones and the diagonal of
prob_col, and takes the product of each row. -/
noncomputable def prob_prod_arr (n : ℕ) (prob_mat : ℕ → ℕ → ℝ) (prob_col : ℕ → ℝ) : ℕ → ℝ :=
  fun i => ∏ j ∈ Finset.range n, (triuOnes i j + fillDiagZero prob_mat i j + diagMat prob_col i j)

/-- Embeds sum_times for an n by n matrix: zeroes the diagonal and sums each
row. -/
noncomputable def sum_times (n : ℕ) (time_mat : ℕ → ℕ → ℝ) : ℕ → ℝ :=
  fun i => ∑ j ∈ Finset.range n, fillDiagZero time_mat i j

/-- Embeds expected_time_eq, with np.prod and np.sum over the n entries of
each array. -/
noncomputable def expected_time_eq (n : ℕ) (prod_arr sum_arr time_col prob_col prob_comp : ℕ → ℝ) : ℝ :=
  (∏ i ∈ Finset.range n, prob_comp i) * (∑ i ∈ Finset.range n, time_col i)
    + ∑ i ∈ Finset.range n,
        prod_arr i * (sum_arr i - time_col i / prob_col i
          + time_col i / Real.log (1 / (1 - prob_col i)) + time_col i)

/-- The i-th entry of the column xs reindexed by the permutation perm, as in
df['Time'][np.array(perm) - 1]: position i of the column holds the value of
the task placed at position i of the ordering. -/
noncomputable def permCol (xs : List ℝ) (perm : List ℕ) : ℕ → ℝ :=
  fun i => xs.getD (perm.getD i 1 - 1) 0

/-- The body of the loop of get_expected_times for a single permutation:
builds the probability and time columns in ordering order, the two lower
triangular matrices, the product array and the cumulative sums, and feeds them
to expected_time_eq. -/
noncomputable def expTimeOfPerm (times probs : List ℝ) (perm : List ℕ) : ℝ :=
  let n := perm.length
  let prob_col := permCol probs perm
  let prob_comp := fun i => 1 - prob_col i
  let prob_mat := expand_to_lower_tri_mat prob_comp
  let prod_arr := prob_prod_arr n prob_mat prob_col
  let time_col := permCol times perm
  let time_mat := expand_to_lower_tri_mat time_col
  let sum_arr := sum_times n time_mat
  expected_time_eq n prod_arr sum_arr time_col prob_col prob_comp

/-- Embeds get_expected_times: one expected-time value per permutation, in the
order the permutations are listed. -/
noncomputable def get_expected_times (perms : List (List ℕ)) (times probs : List ℝ) : List ℝ :=
  perms.map (expTimeOfPerm times probs)

/-- Embeds get_lambdas: the hazard rate of each task. -/
noncomputable def get_lambdas (time prob : ℕ → ℝ) : ℕ → ℝ :=
  fun i => 1 / time i * Real.log (1 / (1 - prob i))

/-- Modelled from the spec (section 4.3): the probability of reaching and
failing exactly on step i, P(L = i) = p_i times the product of (1 - p_k) over
the steps k before i. -/
noncomputable def specProbFail (p : ℕ → ℝ) (i : ℕ) : ℝ :=
  p i * ∏ k ∈ Finset.range i, (1 - p k)

/-- Modelled from the spec (section 4.3): the expected total time given
failure on step i, namely the time elapsed before step i, minus t_i over p_i,
plus t_i over ln(1/(1-p_i)), plus t_i. -/
noncomputable def specCondTime (t p : ℕ → ℝ) (i : ℕ) : ℝ :=
  (∑ j ∈ Finset.range i, t j) - t i / p i + t i / Real.log (1 / (1 - p i)) + t i

/-- Modelled from the spec (section 4.3): the closed-form expected total time
of an ordering whose step durations and failure probabilities are t and p,
combining full success and each failure step by the law of total
expectation. -/
noncomputable def specExpectedTime (n : ℕ) (t p : ℕ → ℝ) : ℝ :=
  (∏ i ∈ Finset.range n, (1 - p i)) * (∑ i ∈ Finset.range n, t i)
    + ∑ i ∈ Finset.range n, specProbFail p i * specCondTime t p i

/-- Minimum value of a list of reals, the value np.sort places first and
np.argmin locates. -/
noncomputable def minOf : List ℝ → ℝ
  | [] => 0
  | [x] => x
  | x :: y :: rest => min x (minOf (y :: rest))

/-- Embeds np.argmin on a list of reals: the index of the first occurrence of
the minimum value. -/
noncomputable def np_argmin : List ℝ → ℕ
  | [] => 0
  | [_] => 0
  | x :: y :: rest => if x ≤ minOf (y :: rest) then 0 else np_argmin (y :: rest) + 1

/-- Insertion into a sorted list, the building block of the sort model. -/
noncomputable def insertSorted (x : ℝ) : List ℝ → List ℝ
  | [] => [x]
  | y :: rest => if x ≤ y then x :: y :: rest else y :: insertSorted x rest

/-- Embeds np.sort on a list of reals: the same values in ascending order. -/
noncomputable def np_sort : List ℝ → List ℝ
  | [] => []
  | x :: rest => insertSorted x (np_sort rest)

/-- The values main hands to the report layer: the winning ordering, the
expected-time figure printed as sorted_sums[0], and the sorted list of all
expected times. -/
structure MainRes where
  best_order : List ℕ
  min_time : ℝ
  sorted_sums : List ℝ

/-- The dependency matrix main reads off df.filter(like='D') after
switch_from_names has run. -/
def depsOf (df : DF) : List (List Cell) :=
  (switch_from_names df).deps

/-- The feasible orderings main computes: every permutation of the row
indices, filtered by check_perm against the resolved dependency rows. -/
def validPermsOf (df : DF) : List (List ℕ) :=
  validate_perms (gen_perms df.tasks.length) (depsOf df)

/-- The list of expected times main computes for the feasible orderings. -/
noncomputable def sumsOf (df : DF) : List ℝ :=
  get_expected_times (validPermsOf df) df.times df.probs

/-- Embeds main.  The first component is the report: none models the uncaught
ValueError numpy raises when np.argmin is applied to the empty list of sums
(the code has no other failure path).  The second component is the state of
the caller's dataframe when main returns: switch_from_names rewrites the
dependency columns of df in place before anything else runs. -/
noncomputable def main (df : DF) : Option MainRes × DF :=
  let valid := validPermsOf df
  let sums := sumsOf df
  (if valid = [] then none
   else some
     { best_order := valid.getD (np_argmin sums) []
       min_time := (np_sort sums).headD 0
       sorted_sums := np_sort sums },
   switch_from_names df)

/-- The alive-pool size entering each task step of simulate_failures, with the
exponential draws supplied as an oracle: draws j i is the value drawn for the
i-th alive trial during step j.  The pool starts at 50000 and shrinks at each
step by the number of draws at most the step duration. -/
noncomputable def aliveAt (times : List ℝ) (draws : ℕ → ℕ → ℝ) : ℕ → ℕ
  | 0 => 50000
  | j + 1 =>
      aliveAt times draws j -
        (((List.range (aliveAt times draws j)).map (draws j)).filter
          (fun x => decide (x ≤ times.getD j 0))).length

/-- The values drawn for the currently alive trials at step j, the embedding
of RV(Exponential(rate)).sim(success_count). -/
noncomputable def trialsAt (times : List ℝ) (draws : ℕ → ℕ → ℝ) (j : ℕ) : List ℝ :=
  (List.range (aliveAt times draws j)).map (draws j)

/-- The draws at step j that are at most the step duration, the embedding of
trials.filter_leq(time[j]): the trials recorded as failing during step j. -/
noncomputable def stepFailuresAt (times : List ℝ) (draws : ℕ → ℕ → ℝ) (j : ℕ) : List ℝ :=
  (trialsAt times draws j).filter (fun x => decide (x ≤ times.getD j 0))

/-- The loop of simulate_failures: walks the remaining step durations carrying
the step counter, the alive-pool size and the elapsed time before the current
step, and concatenates the recorded failure times of every step. -/
noncomputable def simAux (draws : ℕ → ℕ → ℝ) : List ℝ → ℕ → ℕ → ℝ → List ℝ
  | [], _, _, _ => []
  | t :: rest, j, alive, prior =>
      ((((List.range alive).map (draws j)).filter (fun x => decide (x ≤ t))).map
          (fun x => x + prior))
        ++ simAux draws rest (j + 1)
            (((List.range alive).map (draws j)).length
              - (((List.range alive).map (draws j)).filter (fun x => decide (x ≤ t))).length)
            (prior + t)

/-- Embeds simulate_failures for the ordering whose step durations are times,
with the exponential sampling supplied by the draw oracle: starts 50000 alive
trials at elapsed time zero and returns np.hstack of the per-step failure-time
arrays. -/
noncomputable def simulate_failures (times : List ℝ) (draws : ℕ → ℕ → ℝ) : List ℝ :=
  simAux draws times 0 50000 0

/-! Helper lemmas. -/

lemma numDeps_getD (deps : List (List ℕ)) (j : ℕ) :
    (numDeps deps).getD j [] = (deps.getD j []).map Cell.num := by
  induction deps generalizing j with
  | nil => simp [numDeps]
  | cons r rs ih =>
    cases j with
    | zero => simp [numDeps]
    | succ j => simpa [numDeps] using ih j

lemma checkAux_numDeps_iff (deps : List (List ℕ)) (todo : List ℕ) :
    ∀ prev : List ℕ,
      checkAux (numDeps deps) prev todo = true ↔
        ∀ k < todo.length, ∀ d ∈ deps.getD (todo.getD k 0 - 1) [],
          d ∈ prev ++ todo.take (k + 1) := by
  induction todo with
  | nil =>
    intro prev
    simp [checkAux]
  | cons i rest ih =>
    intro prev
    have hcond :
        ((numDeps deps).getD (i - 1) []).all (fun c => cellMem c (prev ++ [i])) = true ↔
          ∀ d ∈ deps.getD (i - 1) [], d ∈ prev ++ [i] := by
      rw [numDeps_getD]
      simp [List.all_eq_true, cellMem]
    have hsplit :
        (∀ k < (i :: rest).length, ∀ d ∈ deps.getD ((i :: rest).getD k 0 - 1) [],
            d ∈ prev ++ (i :: rest).take (k + 1)) ↔
          ((∀ d ∈ deps.getD (i - 1) [], d ∈ prev ++ [i]) ∧
            (∀ k < rest.length, ∀ d ∈ deps.getD (rest.getD k 0 - 1) [],
              d ∈ (prev ++ [i]) ++ rest.take (k + 1))) := by
      constructor
      · intro h
        refine ⟨?_, ?_⟩
        · intro d hd
          have h0 := h 0 (by simp) d (by simpa using hd)
          simpa using h0
        · intro k hk d hd
          have hstep := h (k + 1) (by simpa using Nat.succ_lt_succ hk) d (by simpa using hd)
          simpa [List.append_assoc] using hstep
      · rintro ⟨h0, h1⟩ k hk d hd
        cases k with
        | zero => simpa using h0 d (by simpa using hd)
        | succ q =>
          have hstep := h1 q (by simpa using Nat.lt_of_succ_lt_succ hk) d (by simpa using hd)
          simpa [List.append_assoc] using hstep
    rw [hsplit]
    by_cases hc : ((numDeps deps).getD (i - 1) []).all (fun c => cellMem c (prev ++ [i])) = true
    · simp only [checkAux, hc, if_true]
      rw [ih (prev ++ [i])]
      constructor
      · intro hrec
        exact ⟨hcond.mp hc, hrec⟩
      · intro hboth
        exact hboth.2
    · have hcf : ¬ (∀ d ∈ deps.getD (i - 1) [], d ∈ prev ++ [i]) :=
        fun hall => hc (hcond.mpr hall)
      simp only [checkAux]
      rw [if_neg hc]
      constructor
      · intro hfalse
        exact absurd hfalse (by simp)
      · rintro ⟨h0, -⟩
        exact (hcf h0).elim

lemma permsAux_length : ∀ (n : ℕ) (l : List ℕ), l.length = n → (permsAux n l).length = n.factorial := by
  intro n
  induction n with
  | zero =>
    intro l h
    simp [permsAux, Nat.factorial]
  | succ k ih =>
    intro l h
    rw [permsAux, List.length_flatMap]
    have hpt : ∀ x ∈ l, ((permsAux k (l.erase x)).map (fun p => x :: p)).length = k.factorial := by
      intro x hx
      rw [List.length_map]
      apply ih
      have hlen := List.length_erase_add_one hx
      omega
    calc (l.map fun x => ((permsAux k (l.erase x)).map (fun p => x :: p)).length).sum
        = (l.map fun _ => k.factorial).sum := by
          rw [List.map_congr_left hpt]
      _ = l.length * k.factorial := by
          rw [List.map_const', List.sum_replicate, smul_eq_mul]
      _ = (k + 1).factorial := by
          rw [h, Nat.factorial_succ]

/-- C2: check_perm accepts an ordering exactly when it is feasible, and
validate_perms keeps exactly the orderings check_perm accepts.  The dependency
rows are numeric (names already resolved) and, as the data-model invariant of
the specification requires, no task depends on itself. -/
theorem claim2_check_perm_iff_feasible (deps : List (List ℕ)) (perm : List ℕ)
    (perms : List (List ℕ))
    (hself : ∀ k < perm.length, perm.getD k 0 ∉ deps.getD (perm.getD k 0 - 1) []) :
    (check_perm perm (numDeps deps) = true ↔ feasiblePerm perm deps)
      ∧ (perm ∈ validate_perms perms (numDeps deps) ↔
          perm ∈ perms ∧ check_perm perm (numDeps deps) = true) := by
  constructor
  · rw [check_perm, checkAux_numDeps_iff]
    unfold feasiblePerm
    constructor
    · intro h k hk d hd
      have hmem := h k hk d hd
      rcases List.mem_append.mp hmem with h0 | h1
      · left
        simpa using h0
      · have htake : perm.take (k + 1) = perm.take k ++ [perm.getD k 0] := by
          rw [List.getD_eq_getElem _ _ hk]
          exact (List.take_concat_get' perm k hk).symm
        rw [htake] at h1
        rcases List.mem_append.mp h1 with h2 | h2
        · right
          exact h2
        · exfalso
          have hdk : d = perm.getD k 0 := by simpa using h2
          exact hself k hk (hdk ▸ hd)
    · intro h k hk d hd
      rcases h k hk d hd with h0 | h1
      · subst h0
        exact List.mem_append.mpr (Or.inl (by simp))
      · refine List.mem_append.mpr (Or.inr ?_)
        have htake : perm.take (k + 1) = perm.take k ++ [perm.getD k 0] := by
          rw [List.getD_eq_getElem _ _ hk]
          exact (List.take_concat_get' perm k hk).symm
        rw [htake]
        exact List.mem_append.mpr (Or.inl h1)
  · simp [validate_perms, List.mem_filter]

/-- Witness for C2 at a concrete input: two tasks, the second depending on the
first, checked on the ordering that places them in that order. -/
theorem claim2_witness :
    (∀ k < ([1, 2] : List ℕ).length,
        ([1, 2] : List ℕ).getD k 0 ∉ ([[0], [1]] : List (List ℕ)).getD (([1, 2] : List ℕ).getD k 0 - 1) [])
      ∧ ((check_perm [1, 2] (numDeps [[0], [1]]) = true ↔ feasiblePerm [1, 2] [[0], [1]])
          ∧ ([1, 2] ∈ validate_perms [[1, 2], [2, 1]] (numDeps [[0], [1]]) ↔
              [1, 2] ∈ ([[1, 2], [2, 1]] : List (List ℕ))
                ∧ check_perm [1, 2] (numDeps [[0], [1]]) = true)) :=
  ⟨by decide, claim2_check_perm_iff_feasible [[0], [1]] [1, 2] [[1, 2], [2, 1]] (by decide)⟩

/-- C6: the code has no capacity bound.  gen_perms always enumerates all n!
orderings, and the only way main produces no report is an empty feasible set:
no input is ever rejected or flagged for its task count. -/
theorem claim6_no_capacity_bound (n : ℕ) (df : DF) :
    (gen_perms n).length = n.factorial
      ∧ ((main df).1 = none ↔ validPermsOf df = []) := by
  constructor
  · apply permsAux_length
    simp
  · by_cases h : validPermsOf df = []
    · simp [main, h]
    · simp [main, h]

/-- C7: trim_df does not keep every row and column holding a nonzero entry.
On a one-by-one table whose single cell is nonzero it returns the empty table
(the last row and column of a table with no all-zero rows or columns are
dropped), and on a one-column table whose third row is nonzero but whose
second row is all zero, the nonzero third row is dropped along with the
column. -/
theorem claim7_trim_df_drops_nonzero :
    trim_df [[Cell.num 5]] = []
      ∧ trim_df [[Cell.num 1], [Cell.num 0], [Cell.num 2]] = [[]] := by
  constructor
  · decide
  · decide

lemma prob_prod_arr_eq (n : ℕ) (p : ℕ → ℝ) {i : ℕ} (hi : i < n) :
    prob_prod_arr n (expand_to_lower_tri_mat (fun j => 1 - p j)) p i = specProbFail p i := by
  have hentry : ∀ j,
      triuOnes i j + fillDiagZero (expand_to_lower_tri_mat (fun j => 1 - p j)) i j + diagMat p i j
        = if j < i then 1 - p j else if j = i then p i else 1 := by
    intro j
    rcases lt_trichotomy j i with h | h | h
    · have h1 : ¬ i < j := by omega
      have h2 : ¬ i = j := by omega
      have h3 : j ≤ i := by omega
      simp [triuOnes, fillDiagZero, diagMat, expand_to_lower_tri_mat, h1, h2, h3, h]
    · subst h
      simp [triuOnes, fillDiagZero, diagMat, expand_to_lower_tri_mat]
    · have h1 : i < j := h
      have h2 : ¬ i = j := by omega
      have h3 : ¬ j ≤ i := by omega
      have h4 : ¬ j < i := by omega
      have h5 : ¬ j = i := by omega
      simp [triuOnes, fillDiagZero, diagMat, expand_to_lower_tri_mat, h1, h2, h3, h4, h5]
  rw [prob_prod_arr]
  calc (∏ j ∈ Finset.range n,
          (triuOnes i j + fillDiagZero (expand_to_lower_tri_mat (fun j => 1 - p j)) i j
            + diagMat p i j))
      = ∏ j ∈ Finset.range n, (if j < i then 1 - p j else if j = i then p i else 1) :=
        Finset.prod_congr rfl (fun j _ => hentry j)
    _ = (∏ j ∈ Finset.range (i + 1), (if j < i then 1 - p j else if j = i then p i else 1))
          * ∏ j ∈ Finset.Ico (i + 1) n, (if j < i then 1 - p j else if j = i then p i else 1) :=
        (Finset.prod_range_mul_prod_Ico _ (Nat.succ_le_of_lt hi)).symm
    _ = specProbFail p i := by
        have hIco : (∏ j ∈ Finset.Ico (i + 1) n,
            (if j < i then 1 - p j else if j = i then p i else 1)) = 1 := by
          apply Finset.prod_eq_one
          intro j hj
          have hj' := Finset.mem_Ico.mp hj
          have h1 : ¬ j < i := by omega
          have h2 : ¬ j = i := by omega
          simp [h1, h2]
        rw [hIco, mul_one, Finset.prod_range_succ]
        have hfirst : (∏ j ∈ Finset.range i,
            (if j < i then 1 - p j else if j = i then p i else 1))
              = ∏ j ∈ Finset.range i, (1 - p j) :=
          Finset.prod_congr rfl (fun j hj => by simp [Finset.mem_range.mp hj])
        rw [hfirst]
        simp [specProbFail, mul_comm]

lemma sum_times_eq (n : ℕ) (t : ℕ → ℝ) {i : ℕ} (hi : i < n) :
    sum_times n (expand_to_lower_tri_mat t) i = ∑ j ∈ Finset.range i, t j := by
  have hentry : ∀ j, fillDiagZero (expand_to_lower_tri_mat t) i j = if j < i then t j else 0 := by
    intro j
    rcases lt_trichotomy j i with h | h | h
    · have h2 : ¬ i = j := by omega
      have h3 : j ≤ i := by omega
      simp [fillDiagZero, expand_to_lower_tri_mat, h2, h3, h]
    · subst h
      simp [fillDiagZero, expand_to_lower_tri_mat]
    · have h2 : ¬ i = j := by omega
      have h3 : ¬ j ≤ i := by omega
      have h4 : ¬ j < i := by omega
      simp [fillDiagZero, expand_to_lower_tri_mat, h2, h3, h4]
  rw [sum_times]
  calc (∑ j ∈ Finset.range n, fillDiagZero (expand_to_lower_tri_mat t) i j)
      = ∑ j ∈ Finset.range n, (if j < i then t j else 0) :=
        Finset.sum_congr rfl (fun j _ => hentry j)
    _ = (∑ j ∈ Finset.range i, (if j < i then t j else 0))
          + ∑ j ∈ Finset.Ico i n, (if j < i then t j else 0) :=
        (Finset.sum_range_add_sum_Ico _ (le_of_lt hi)).symm
    _ = ∑ j ∈ Finset.range i, t j := by
        have hIco : (∑ j ∈ Finset.Ico i n, (if j < i then t j else 0)) = 0 := by
          apply Finset.sum_eq_zero
          intro j hj
          have hj' := Finset.mem_Ico.mp hj
          have h1 : ¬ j < i := by omega
          simp [h1]
        rw [hIco, add_zero]
        exact Finset.sum_congr rfl (fun j hj => by simp [Finset.mem_range.mp hj])

lemma expected_time_matrix_eq (n : ℕ) (t p : ℕ → ℝ) :
    expected_time_eq n
        (prob_prod_arr n (expand_to_lower_tri_mat (fun j => 1 - p j)) p)
        (sum_times n (expand_to_lower_tri_mat t)) t p (fun j => 1 - p j)
      = specExpectedTime n t p := by
  rw [expected_time_eq, specExpectedTime]
  congr 1
  apply Finset.sum_congr rfl
  intro i hi
  have hi' := Finset.mem_range.mp hi
  rw [prob_prod_arr_eq n p hi', sum_times_eq n t hi', specCondTime]

/-- C1: the value get_expected_times appends for each ordering — computed via
the triangular matrices, prob_prod_arr and sum_times fed to expected_time_eq —
equals the closed-form expected total time of the specification, with the
duration and probability columns re-indexed in the ordering's sequence. -/
theorem claim1_expected_times_closed_form (times probs : List ℝ) (perms : List (List ℕ))
    (hp : ∀ x ∈ probs, 0 < x ∧ x < 1) (ht : ∀ x ∈ times, 0 < x) :
    get_expected_times perms times probs
      = perms.map (fun perm =>
          specExpectedTime perm.length (permCol times perm) (permCol probs perm)) := by
  unfold get_expected_times
  apply List.map_congr_left
  intro perm _
  show expTimeOfPerm times probs perm = _
  unfold expTimeOfPerm
  exact expected_time_matrix_eq perm.length (permCol times perm) (permCol probs perm)

/-- Witness for C1 at a concrete input: one task of duration 1 and failure
probability one half, on the single ordering. -/
theorem claim1_witness :
    ((∀ x ∈ ([1 / 2] : List ℝ), 0 < x ∧ x < 1) ∧ (∀ x ∈ ([1] : List ℝ), 0 < x))
      ∧ get_expected_times [[1]] [1] [1 / 2]
          = ([[1]] : List (List ℕ)).map (fun perm =>
              specExpectedTime perm.length (permCol [1] perm) (permCol [1 / 2] perm)) :=
  ⟨⟨by norm_num, by norm_num⟩,
    claim1_expected_times_closed_form [1] [1 / 2] [[1]] (by norm_num) (by norm_num)⟩

lemma specProbFail_telescope (p : ℕ → ℝ) (n : ℕ) :
    ∑ i ∈ Finset.range n, specProbFail p i = 1 - ∏ i ∈ Finset.range n, (1 - p i) := by
  induction n with
  | zero => simp
  | succ m ih =>
    rw [Finset.sum_range_succ, Finset.prod_range_succ, ih, specProbFail]
    ring

/-- C10: the overall success probability together with the per-step failure
probabilities computed by prob_prod_arr sum to one, so the weights of the
law-of-total-expectation combination in expected_time_eq are exhaustive. -/
theorem claim10_weights_sum_to_one (n : ℕ) (p : ℕ → ℝ) (hp : ∀ i < n, 0 < p i ∧ p i < 1) :
    (∏ i ∈ Finset.range n, (1 - p i))
      + ∑ i ∈ Finset.range n,
          prob_prod_arr n (expand_to_lower_tri_mat (fun j => 1 - p j)) p i = 1 := by
  have h1 : (∑ i ∈ Finset.range n,
        prob_prod_arr n (expand_to_lower_tri_mat (fun j => 1 - p j)) p i)
      = ∑ i ∈ Finset.range n, specProbFail p i :=
    Finset.sum_congr rfl (fun i hi => prob_prod_arr_eq n p (Finset.mem_range.mp hi))
  rw [h1, specProbFail_telescope]
  ring

/-- Witness for C10 at a concrete input: one task with failure probability one
half. -/
theorem claim10_witness :
    (∀ i < 1, 0 < (fun _ : ℕ => (1 : ℝ) / 2) i ∧ (fun _ : ℕ => (1 : ℝ) / 2) i < 1)
      ∧ (∏ i ∈ Finset.range 1, (1 - (fun _ : ℕ => (1 : ℝ) / 2) i))
          + ∑ i ∈ Finset.range 1,
              prob_prod_arr 1 (expand_to_lower_tri_mat (fun j => 1 - (fun _ : ℕ => (1 : ℝ) / 2) j))
                (fun _ : ℕ => (1 : ℝ) / 2) i = 1 :=
  ⟨by norm_num, claim10_weights_sum_to_one 1 (fun _ => 1 / 2) (by norm_num)⟩

lemma minOf_cons (x : ℝ) {rest : List ℝ} (h : rest ≠ []) :
    minOf (x :: rest) = min x (minOf rest) := by
  cases rest with
  | nil => exact absurd rfl h
  | cons y t => rfl

lemma minOf_le {l : List ℝ} : ∀ x ∈ l, minOf l ≤ x := by
  induction l with
  | nil => simp
  | cons a rest ih =>
    intro x hx
    cases rest with
    | nil =>
      have hxa : x = a := by simpa using hx
      subst hxa
      simp [minOf]
    | cons y t =>
      rw [minOf_cons a (by simp)]
      rcases List.mem_cons.mp hx with h | h
      · subst h
        exact min_le_left _ _
      · exact le_trans (min_le_right _ _) (ih x h)

lemma np_argmin_lt_length {l : List ℝ} (h : l ≠ []) : np_argmin l < l.length := by
  induction l with
  | nil => exact absurd rfl h
  | cons a rest ih =>
    cases rest with
    | nil => simp [np_argmin]
    | cons y t =>
      by_cases hc : a ≤ minOf (y :: t)
      · simp [np_argmin, hc]
      · have hrec := ih (by simp)
        simp only [List.length_cons] at hrec
        simp only [np_argmin, if_neg hc, List.length_cons]
        omega

lemma np_argmin_getD {l : List ℝ} (h : l ≠ []) : l.getD (np_argmin l) 0 = minOf l := by
  induction l with
  | nil => exact absurd rfl h
  | cons a rest ih =>
    cases rest with
    | nil => simp [np_argmin, minOf]
    | cons y t =>
      rw [minOf_cons a (by simp)]
      by_cases hc : a ≤ minOf (y :: t)
      · simp only [np_argmin, if_pos hc, List.getD_cons_zero]
        exact (min_eq_left hc).symm
      · simp only [np_argmin, if_neg hc, List.getD_cons_succ]
        rw [ih (by simp)]
        exact (min_eq_right (le_of_lt (lt_of_not_ge hc))).symm

lemma np_argmin_first {l : List ℝ} : ∀ j < np_argmin l, minOf l < l.getD j 0 := by
  induction l with
  | nil => simp [np_argmin]
  | cons a rest ih =>
    cases rest with
    | nil => simp [np_argmin]
    | cons y t =>
      intro j hj
      by_cases hc : a ≤ minOf (y :: t)
      · rw [np_argmin, if_pos hc] at hj
        omega
      · rw [np_argmin, if_neg hc] at hj
        rw [minOf_cons a (by simp)]
        cases j with
        | zero =>
          rw [List.getD_cons_zero, min_eq_right (le_of_lt (lt_of_not_ge hc))]
          exact lt_of_not_ge hc
        | succ q =>
          rw [List.getD_cons_succ]
          exact lt_of_le_of_lt (min_le_right _ _) (ih q (by omega))

lemma insertSorted_ne_nil (x : ℝ) (l : List ℝ) : insertSorted x l ≠ [] := by
  cases l with
  | nil => simp [insertSorted]
  | cons y t =>
    rw [insertSorted]
    split
    · simp
    · simp

lemma np_sort_ne_nil {l : List ℝ} (h : l ≠ []) : np_sort l ≠ [] := by
  cases l with
  | nil => exact absurd rfl h
  | cons x rest =>
    rw [np_sort]
    exact insertSorted_ne_nil x _

lemma headD_insertSorted_cons (x y : ℝ) (t : List ℝ) :
    (insertSorted x (y :: t)).headD 0 = min x y := by
  rw [insertSorted]
  by_cases h : x ≤ y
  · simp [h, min_eq_left h]
  · simp only [if_neg h, List.headD_cons]
    exact (min_eq_right (le_of_lt (lt_of_not_ge h))).symm

lemma headD_np_sort {l : List ℝ} (h : l ≠ []) : (np_sort l).headD 0 = minOf l := by
  induction l with
  | nil => exact absurd rfl h
  | cons x rest ih =>
    cases rest with
    | nil => simp [np_sort, insertSorted, minOf]
    | cons y t =>
      rw [np_sort]
      have hs := np_sort_ne_nil (l := y :: t) (by simp)
      cases hz : np_sort (y :: t) with
      | nil => exact absurd hz hs
      | cons z w =>
        rw [headD_insertSorted_cons]
        have hzval : z = minOf (y :: t) := by
          have hhead := ih (by simp)
          rw [hz] at hhead
          simpa using hhead
        rw [hzval, minOf_cons x (by simp)]

lemma getD_map_expTime (f : List ℕ → ℝ) (q : List (List ℕ)) {j : ℕ} (hj : j < q.length) :
    (q.map f).getD j 0 = f (q.getD j []) := by
  rw [List.getD_eq_getElem _ _ (by simpa using hj), List.getD_eq_getElem _ _ hj]
  exact List.getElem_map f

/-- C3: on a non-empty feasible set, main reports some result; the selected
ordering is feasible, its expected time is at most that of every feasible
ordering, every feasible ordering listed before it has strictly greater
expected time (so it is the first minimizer in enumeration order), and the
reported head of the sorted sums equals the selected ordering's expected
time. -/
theorem claim3_main_selects_minimizer (df : DF) (h : validPermsOf df ≠ []) :
    ∃ res : MainRes, (main df).1 = some res
      ∧ res.best_order ∈ validPermsOf df
      ∧ (∀ perm ∈ validPermsOf df,
          expTimeOfPerm df.times df.probs res.best_order
            ≤ expTimeOfPerm df.times df.probs perm)
      ∧ (∀ j < np_argmin (sumsOf df),
          expTimeOfPerm df.times df.probs res.best_order
            < expTimeOfPerm df.times df.probs ((validPermsOf df).getD j []))
      ∧ res.min_time = expTimeOfPerm df.times df.probs res.best_order := by
  have hs : sumsOf df = (validPermsOf df).map (expTimeOfPerm df.times df.probs) := rfl
  have hsne : sumsOf df ≠ [] := by
    rw [hs]
    simpa using h
  have hlen : (sumsOf df).length = (validPermsOf df).length := by
    rw [hs, List.length_map]
  have hilt : np_argmin (sumsOf df) < (sumsOf df).length := np_argmin_lt_length hsne
  have hiq : np_argmin (sumsOf df) < (validPermsOf df).length := by omega
  have hfb : expTimeOfPerm df.times df.probs ((validPermsOf df).getD (np_argmin (sumsOf df)) [])
      = minOf (sumsOf df) := by
    rw [← np_argmin_getD hsne]
    conv_rhs => rw [hs]
    exact (getD_map_expTime _ _ hiq).symm
  refine ⟨{ best_order := (validPermsOf df).getD (np_argmin (sumsOf df)) []
          , min_time := (np_sort (sumsOf df)).headD 0
          , sorted_sums := np_sort (sumsOf df) }, ?_, ?_, ?_, ?_, ?_⟩
  · simp [main, h]
  · rw [List.getD_eq_getElem _ _ hiq]
    exact List.getElem_mem hiq
  · intro perm hperm
    rw [hfb]
    apply minOf_le
    rw [hs]
    exact List.mem_map_of_mem _ hperm
  · intro j hj
    rw [hfb]
    have hjq : j < (validPermsOf df).length := by omega
    have := np_argmin_first j hj
    rw [hs, getD_map_expTime _ _ hjq] at this
    exact this
  · rw [headD_np_sort hsne, hfb]

/-- A one-task table used as concrete input by several witnesses. -/
noncomputable def dfOne : DF :=
  { tasks := ["A"], times := [1], probs := [1 / 2], deps := [[Cell.num 0]] }

/-- Witness for C3 at a concrete input: the one-task table, whose feasible set
is the single ordering. -/
theorem claim3_witness :
    (validPermsOf dfOne ≠ [])
      ∧ (∃ res : MainRes, (main dfOne).1 = some res
          ∧ res.best_order ∈ validPermsOf dfOne
          ∧ (∀ perm ∈ validPermsOf dfOne,
              expTimeOfPerm dfOne.times dfOne.probs res.best_order
                ≤ expTimeOfPerm dfOne.times dfOne.probs perm)
          ∧ (∀ j < np_argmin (sumsOf dfOne),
              expTimeOfPerm dfOne.times dfOne.probs res.best_order
                < expTimeOfPerm dfOne.times dfOne.probs ((validPermsOf dfOne).getD j []))
          ∧ res.min_time = expTimeOfPerm dfOne.times dfOne.probs res.best_order) :=
  ⟨by decide, claim3_main_selects_minimizer dfOne (by decide)⟩

/-- A cyclic two-task table: each of the two tasks declares the other as a
dependency, so no ordering is feasible. -/
noncomputable def dfCyclic : DF :=
  { tasks := ["A", "B"], times := [1, 1], probs := [1 / 2, 1 / 2]
  , deps := [[Cell.name "B"], [Cell.name "A"]] }

/-- C4: on a cyclic dependency table the feasible set is empty and main
reaches np.argmin of the empty sums list, which raises an uncaught ValueError
(the none result of the model) instead of surfacing an explicit
no-valid-sequence error. -/
theorem claim4_cycle_crashes_on_empty_argmin :
    validPermsOf dfCyclic = [] ∧ (main dfCyclic).1 = none := by
  have h : validPermsOf dfCyclic = [] := by decide
  exact ⟨h, by simp [main, h]⟩

/-- A one-task table whose failure probability is exactly 1, outside the open
interval the specification requires. -/
noncomputable def dfPOne : DF :=
  { tasks := ["A"], times := [2], probs := [1], deps := [[Cell.num 0]] }

/-- C5: no validation rejects a probability outside (0,1).  With p = 1 the
pipeline runs to completion: the feasible set is the single ordering, main
returns a report, and the expected-time evaluation proceeds through the
hazard-rate formula on the invalid probability. -/
theorem claim5_no_probability_validation :
    validPermsOf dfPOne = [[1]] ∧ ((main dfPOne).1).isSome = true := by
  have hv : validPermsOf dfPOne = [[1]] := by decide
  refine ⟨hv, ?_⟩
  have h : validPermsOf dfPOne ≠ [] := by
    rw [hv]
    simp
  simp [main, h]

/-- A two-task table whose second task declares the first by name, used to
exhibit the in-place rewrite of the caller's dependency cells. -/
noncomputable def dfNames : DF :=
  { tasks := ["A", "B"], times := [1, 2], probs := [1 / 2, 1 / 3]
  , deps := [[Cell.num 0], [Cell.name "A"]] }

/-- C9 counterexample: after main returns, the caller's table is not the
table passed in — the dependency cell holding the name A now holds the
index 1. -/
theorem claim9_counterexample : (main dfNames).2 ≠ dfNames := by
  intro hEq
  have hdeps : (main dfNames).2.deps = dfNames.deps := congrArg DF.deps hEq
  have hsw : (main dfNames).2.deps = (switch_from_names dfNames).deps := rfl
  rw [hsw] at hdeps
  revert hdeps
  decide

/-- C9 amended: main leaves the task-name, duration and probability columns
of the caller's table unchanged, but rewrites every dependency cell in place
through resolveCell, replacing each cell holding a known task name by that
task's 1-based row index (the switch_from_names conversion). -/
theorem claim9_amended_frame (df : DF) :
    (main df).2.tasks = df.tasks ∧ (main df).2.times = df.times
      ∧ (main df).2.probs = df.probs
      ∧ (main df).2.deps = df.deps.map (fun row => row.map (resolveCell df.tasks)) :=
  ⟨rfl, rfl, rfl, rfl⟩

lemma trialsAt_length (times : List ℝ) (draws : ℕ → ℕ → ℝ) (j : ℕ) :
    (trialsAt times draws j).length = aliveAt times draws j := by
  simp [trialsAt]

lemma flatMap_map_eq (l : List ℕ) (f : ℕ → ℕ) (g : ℕ → List ℝ) :
    (l.map f).flatMap g = l.flatMap (fun x => g (f x)) := by
  induction l with
  | nil => rfl
  | cons a t ih => simp [List.flatMap_cons, ih]

lemma simAux_spec (times : List ℝ) (draws : ℕ → ℕ → ℝ) :
    ∀ m j : ℕ, m = times.length - j →
      simAux draws (times.drop j) j (aliveAt times draws j) ((times.take j).sum)
        = (List.range m).flatMap
            (fun k => (stepFailuresAt times draws (j + k)).map
              (fun x => x + (times.take (j + k)).sum)) := by
  intro m
  induction m with
  | zero =>
    intro j hj
    have hge : times.length ≤ j := by omega
    rw [List.drop_eq_nil_of_le hge]
    simp [simAux]
  | succ m ih =>
    intro j hj
    have hjlt : j < times.length := by omega
    have hdrop : times.drop j = times.getD j 0 :: times.drop (j + 1) := by
      rw [List.getD_eq_getElem _ _ hjlt]
      exact List.drop_eq_getElem_cons hjlt
    rw [hdrop, simAux]
    have hfl : ((List.range (aliveAt times draws j)).map (draws j)).filter
        (fun x => decide (x ≤ times.getD j 0)) = stepFailuresAt times draws j := rfl
    have htr : (List.range (aliveAt times draws j)).map (draws j) = trialsAt times draws j := rfl
    rw [hfl, htr]
    have halive : (trialsAt times draws j).length - (stepFailuresAt times draws j).length
        = aliveAt times draws (j + 1) := by
      rw [trialsAt_length]
      rfl
    have hsum : (times.take j).sum + times.getD j 0 = (times.take (j + 1)).sum := by
      rw [List.getD_eq_getElem _ _ hjlt, ← List.take_concat_get' times j hjlt, List.sum_append]
      simp
    rw [halive, hsum, ih (j + 1) (by omega)]
    rw [List.range_succ_eq_map, List.flatMap_cons, flatMap_map_eq]
    have hfun : (fun k => (stepFailuresAt times draws ((j + 1) + k)).map
          (fun x => x + (times.take ((j + 1) + k)).sum))
        = fun k => (stepFailuresAt times draws (j + Nat.succ k)).map
          (fun x => x + (times.take (j + Nat.succ k)).sum) := by
      funext k
      have he : (j + 1) + k = j + Nat.succ k := by omega
      rw [he]
    rw [hfun]
    simp

/-- C8: simulate_failures equals the per-step description of the spec.  The
returned sample set is the concatenation, over the task steps in order, of
the draws not exceeding that step's duration shifted by the elapsed time
before the step; the pool starts at 50000 trials; the trials drawn at a step
are one per alive trial; the pool entering the next step shrinks by exactly
the number of newly failed trials; and a draw is recorded at a step exactly
when it is at most that step's duration. -/
theorem claim8_simulator_per_step (times : List ℝ) (draws : ℕ → ℕ → ℝ) :
    simulate_failures times draws
        = (List.range times.length).flatMap
            (fun j => (stepFailuresAt times draws j).map
              (fun x => x + (times.take j).sum))
      ∧ aliveAt times draws 0 = 50000
      ∧ (∀ j, (trialsAt times draws j).length = aliveAt times draws j)
      ∧ (∀ j, aliveAt times draws (j + 1)
            = aliveAt times draws j - (stepFailuresAt times draws j).length)
      ∧ (∀ j x, x ∈ stepFailuresAt times draws j ↔
            x ∈ trialsAt times draws j ∧ x ≤ times.getD j 0) := by
  refine ⟨?_, rfl, trialsAt_length times draws, fun j => rfl, ?_⟩
  · have hspec := simAux_spec times draws times.length 0 (by omega)
    simp only [Nat.zero_add, List.drop_zero, List.take_zero, List.sum_nil] at hspec
    exact hspec
  · intro j x
    simp [stepFailuresAt, List.mem_filter]

end TaskSequencer
